import Mathlib

/-!
Shallow embedding of the `crow_util` crate (files `src/holder.rs`,
`src/traits.rs`, `src/pop_iter.rs`).

A Rust `Vec<T>` is modelled as a `List T`.  Mutable in-place operations
become functions from the old list to the new list.  A Rust reference
`&T` handed out by `Holder` is modelled as a pair `(addr, value)` where
`addr : Nat` is the heap address of the individually boxed value
(allocated from a monotone counter) and `value` is the value read
through the reference; address stability of a reference is then the
statement that `get` keeps returning the same `(addr, value)` pair.
-/

namespace CrowUtil

/-! ## traits.rs : GetTwo -/

/-- Model of `GetTwo::get_two_unchecked` on `Vec<T>` (traits.rs):
reads the elements at `index_a` and `index_b`; the caller must supply
the bounds proofs that the Rust caller promises. -/
def getTwoUnchecked {α : Type} (v : List α) (a b : Nat)
    (ha : a < v.length) (hb : b < v.length) : α × α :=
  (v.get ⟨a, ha⟩, v.get ⟨b, hb⟩)

/-- Model of `GetTwo::get_two` on `Vec<T>` (traits.rs): if
`index_a != index_b && index_a < self.len() && index_b < self.len()`
it defers to `get_two_unchecked`, otherwise it returns `None`. -/
def getTwo {α : Type} (v : List α) (a b : Nat) : Option (α × α) :=
  if h : a ≠ b ∧ a < v.length ∧ b < v.length then
    some (getTwoUnchecked v a b h.2.1 h.2.2)
  else
    none

/-! ## traits.rs : RetainMut -/

/-- Model of `Vec::swap(i, j)` used by `retain_mut`: exchanges the
elements at positions `a` and `b` (defined, as in Rust, only when both
indices are in bounds; out of bounds it leaves the list unchanged,
a case the embedded code never reaches). -/
def listSwap {α : Type} (v : List α) (a b : Nat) : List α :=
  match v[a]?, v[b]? with
  | some x, some y => (v.set a y).set b x
  | _, _ => v

/-- Model of the loop body of `RetainMut::retain_mut` (traits.rs).
The Rust predicate `f : FnMut(&mut T) -> bool` first mutates the
element and then decides; it is modelled as `f : α → α × Bool`
returning the mutated element and the decision.  `fuel` counts the
remaining iterations of `for i in 0..len` (so `i + fuel = len`), `del`
is the deletion counter.  Each iteration stores the mutated element
back (`v.set i`), then: if the predicate said `false` it increments
`del`; otherwise, if `del > 0`, it swaps positions `i - del` and `i`. -/
def retainMutGo {α : Type} (f : α → α × Bool) :
    List α → Nat → Nat → Nat → List α × Nat
  | v, 0, _, del => (v, del)
  | v, fuel+1, i, del =>
    match v[i]? with
    | none => (v, del)
    | some x =>
      let r := f x
      let v2 := v.set i r.1
      if r.2 = false then
        retainMutGo f v2 fuel (i+1) (del+1)
      else if 0 < del then
        retainMutGo f (listSwap v2 (i - del) i) fuel (i+1) del
      else
        retainMutGo f v2 fuel (i+1) del

/-- Model of `RetainMut::retain_mut` for `Vec<T>` (traits.rs): runs the
loop over all `len` indices starting with `del = 0`, then, when
`del > 0`, truncates to `len - del`. -/
def retainMut {α : Type} (f : α → α × Bool) (v : List α) : List α :=
  let r := retainMutGo f v v.length 0 0
  if 0 < r.2 then r.1.take (v.length - r.2) else r.1

/-- Declarative description used to state what `retain_mut` computes:
the mutated element when the predicate keeps it, nothing otherwise. -/
def keepF {α : Type} (f : α → α × Bool) (x : α) : Option α :=
  if (f x).2 then some (f x).1 else none

/-! ## pop_iter.rs -/

/-- Model of `Vec::pop` as used by `PopIter::next` (pop_iter.rs):
removes and returns the last element; on an empty vector it returns
`None` and leaves the vector empty. -/
def popBack {α : Type} (v : List α) : Option α × List α :=
  match v.getLast? with
  | none => (none, v)
  | some x => (some x, v.dropLast)

/-- Model of `Vec::swap_remove(i)` as used by `PopIter::last`
(pop_iter.rs): removes the element at `i` and returns it, moving the
last element into the vacated slot; `None` models the out-of-bounds
panic, unreachable at the call site. -/
def swapRemove {α : Type} (v : List α) (i : Nat) : Option (α × List α) :=
  match v[i]?, v.getLast? with
  | some x, some y => some (x, (v.set i y).dropLast)
  | _, _ => none

/-- Model of `PopIter::next` (pop_iter.rs): `self.vec.pop()`. -/
def popIterNext {α : Type} (v : List α) : Option α × List α :=
  popBack v

/-- Model of `PopIter::count` (pop_iter.rs): `self.vec.len()`. -/
def popIterCount {α : Type} (v : List α) : Nat :=
  v.length

/-- Model of `PopIter::last` (pop_iter.rs): `None` when the vector is
empty, otherwise `Some(self.vec.swap_remove(0))`. -/
def popIterLast {α : Type} (v : List α) : Option α × List α :=
  if v.isEmpty then
    (none, v)
  else
    match swapRemove v 0 with
    | some (x, v2) => (some x, v2)
    | none => (none, v)

/-- Repeated calls of `PopIter::next`: `drainN n v` performs `n` calls,
returning the list of yielded elements in order and the final vector. -/
def drainN {α : Type} : Nat → List α → List α × List α
  | 0, v => ([], v)
  | n+1, v =>
    match popBack v with
    | (none, v2) => ([], v2)
    | (some x, v2) =>
      let rest := drainN n v2
      (x :: rest.1, rest.2)

/-! ## holder.rs -/

/-- Model of `Holder<T>` (holder.rs): the backing
`HashMap<String, Box<T>>` is modelled as the association list
`entries`, each entry carrying the key, the heap address of its box
and the boxed value.  `nextAddr` is the allocator's next fresh
address; `capacity` models the bucket capacity of the backing table. -/
structure Holder (T : Type) where
  entries : List (String × Nat × T)
  nextAddr : Nat
  capacity : Nat
  deriving DecidableEq

/-- Modelled from the spec: the backing table's capacity is a lower
bound on the number of entries storable without reallocating; it grows
when an insertion would exceed it (the amount of growth is
implementation-defined; modelled here as doubling). -/
def growCapacity (cap len : Nat) : Nat :=
  if len + 1 ≤ cap then cap else max (cap * 2) (len + 1)

namespace Holder

/-- Model of `Holder::new` (holder.rs): empty map
(`HashMap::new` starts with capacity 0). -/
def new {T : Type} : Holder T :=
  ⟨[], 0, 0⟩

/-- Model of `Holder::with_capacity` (holder.rs): empty map able to
hold at least `capacity` elements without reallocating. -/
def withCapacity {T : Type} (capacity : Nat) : Holder T :=
  ⟨[], 0, capacity⟩

/-- Model of `Holder::get` (holder.rs): `items.get(key).map(|v| &**v)`.
The returned `&T` is modelled as the `(address, value)` pair of the
entry found for `key`. -/
def get {T : Type} (h : Holder T) (key : String) : Option (Nat × T) :=
  (h.entries.find? (fun e => e.1 == key)).map (fun e => e.2)

/-- Model of `Holder::insert` (holder.rs): if the key is present the
existing entry's reference is returned and the map is unchanged (the
supplied element is discarded); otherwise the element is boxed at a
fresh address, the entry is added, and `None` is returned. -/
def insert {T : Type} (h : Holder T) (key : String) (element : T) :
    Option (Nat × T) × Holder T :=
  if h.entries.any (fun e => e.1 == key) then
    (h.get key, h)
  else
    (none, ⟨h.entries ++ [(key, h.nextAddr, element)], h.nextAddr + 1,
      growCapacity h.capacity h.entries.length⟩)

/-- Model of `Holder::insert_fn` (holder.rs): like `insert` but the
element is produced by the closure, which is invoked only in the
absent branch.  The extra `Nat` is the number of times this call
invoked the closure (`0` in the present branch, `1` in the absent
branch, where the source evaluates `element()` exactly once). -/
def insertFn {T : Type} (h : Holder T) (key : String)
    (element : Unit → T) : Option (Nat × T) × Holder T × Nat :=
  if h.entries.any (fun e => e.1 == key) then
    (h.get key, h, 0)
  else
    (none, ⟨h.entries ++ [(key, h.nextAddr, element ())], h.nextAddr + 1,
      growCapacity h.capacity h.entries.length⟩, 1)

/-- Model of `Holder::clear` (holder.rs): removes all entries; the
backing table's allocation (its capacity) is kept for reuse. -/
def clear {T : Type} (h : Holder T) : Holder T :=
  { h with entries := [] }

/-- Model of `Holder::len` (holder.rs). -/
def len {T : Type} (h : Holder T) : Nat :=
  h.entries.length

/-- Model of `Holder::shrink_to_fit` (holder.rs): shrinks the capacity
as much as possible (modelled as down to the entry count), keeping the
entries. -/
def shrinkToFit {T : Type} (h : Holder T) : Holder T :=
  { h with capacity := h.entries.length }

end Holder

/-- A sequence of `insert` calls, left to right. -/
def insertMany {T : Type} (h : Holder T) : List (String × T) → Holder T
  | [] => h
  | p :: rest => insertMany (h.insert p.1 p.2).2 rest

/-- A sequence of `insert_fn` calls, left to right, summing how often
the producers were invoked. -/
def insertFnMany {T : Type} (h : Holder T) :
    List (String × (Unit → T)) → Holder T × Nat
  | [] => (h, 0)
  | p :: rest =>
    let r := h.insertFn p.1 p.2
    let after := insertFnMany r.2.1 rest
    (after.1, r.2.2 + after.2)

/-! ## Theorems: Holder groundwork -/

theorem Holder.get_eq_none_iff {T : Type} (h : Holder T) (k : String) :
    h.get k = none ↔ h.entries.any (fun e => e.1 == k) = false := by
  simp [Holder.get, List.find?_eq_none, List.any_eq_false]

theorem Holder.get_isSome_iff {T : Type} (h : Holder T) (k : String) :
    (h.get k).isSome ↔ h.entries.any (fun e => e.1 == k) = true := by
  simp [Holder.get, List.find?_isSome, List.any_eq_true]

theorem Holder.insert_of_absent {T : Type} {h : Holder T} {k : String}
    (el : T) (hab : h.get k = none) :
    h.insert k el = (none, ⟨h.entries ++ [(k, h.nextAddr, el)],
      h.nextAddr + 1, growCapacity h.capacity h.entries.length⟩) := by
  have hc := (Holder.get_eq_none_iff h k).1 hab
  simp [Holder.insert, hc]

theorem Holder.insert_of_present {T : Type} {h : Holder T} {k : String}
    (el : T) (hs : (h.get k).isSome) :
    h.insert k el = (h.get k, h) := by
  have hc := (Holder.get_isSome_iff h k).1 hs
  simp [Holder.insert, hc]

theorem Holder.get_append_ne {T : Type} (l : List (String × Nat × T))
    (p : String × Nat × T) (k : String) (hne : p.1 ≠ k) :
    (l ++ [p]).find? (fun e => e.1 == k) = l.find? (fun e => e.1 == k) := by
  have hb : (p.1 == k) = false := beq_eq_false_iff_ne.2 hne
  simp [List.find?_append, List.find?, hb]

theorem Holder.get_insert_ne {T : Type} {h : Holder T} {k k2 : String}
    (el : T) (hne : k ≠ k2) :
    ((h.insert k el).2).get k2 = h.get k2 := by
  unfold Holder.insert
  by_cases hc : h.entries.any (fun e => e.1 == k)
  · simp [hc]
  · simp only [hc, Bool.false_eq_true, if_false]
    show Holder.get ⟨h.entries ++ [(k, h.nextAddr, el)], _, _⟩ k2 = h.get k2
    unfold Holder.get
    rw [Holder.get_append_ne h.entries (k, h.nextAddr, el) k2 hne]

theorem Holder.get_insert_self {T : Type} {h : Holder T} {k : String}
    (el : T) (hab : h.get k = none) :
    ((h.insert k el).2).get k = some (h.nextAddr, el) := by
  rw [Holder.insert_of_absent el hab]
  have hn : h.entries.find? (fun e => e.1 == k) = none := by
    simpa [Holder.get] using hab
  simp [Holder.get, List.find?_append, List.find?, hn]

theorem insertMany_get_ne {T : Type} (ops : List (String × T)) :
    ∀ (h : Holder T) (k : String), (∀ p ∈ ops, p.1 ≠ k) →
      (insertMany h ops).get k = h.get k := by
  induction ops with
  | nil => intro h k _; rfl
  | cons q rest ih =>
    intro h k hne
    show (insertMany (h.insert q.1 q.2).2 rest).get k = h.get k
    rw [ih _ k (fun p hp => hne p (List.mem_cons_of_mem q hp)),
      Holder.get_insert_ne q.2 (hne q (List.mem_cons_self q rest))]

/-- Claim C1.  After `insert(k1, v1)` on a holder not containing `k1`,
the reference returned by `get(k1)` (address `h.nextAddr`, value `v1`)
is unchanged by any further sequence of `insert` calls whose keys all
differ from `k1` — same address, same value — however long the
sequence (in particular long enough to grow the backing table); the
first insert itself returns `None`. -/
theorem holder_address_stability {T : Type} (h : Holder T) (k1 : String)
    (v1 : T) (ops : List (String × T)) (hab : h.get k1 = none)
    (hne : ∀ p ∈ ops, p.1 ≠ k1) :
    (h.insert k1 v1).1 = none ∧
    ((h.insert k1 v1).2).get k1 = some (h.nextAddr, v1) ∧
    (insertMany (h.insert k1 v1).2 ops).get k1 = some (h.nextAddr, v1) := by
  refine ⟨by rw [Holder.insert_of_absent v1 hab], Holder.get_insert_self v1 hab, ?_⟩
  rw [insertMany_get_ne ops _ k1 hne, Holder.get_insert_self v1 hab]

/-- Witness for C1 at a concrete input: a fresh holder, `k1 = "a"`,
`v1 = 7`, followed by two inserts of other keys (which grow the table
from capacity 0). -/
theorem holder_address_stability_witness :
    ((Holder.new (T := Nat)).insert "a" 7).1 = none ∧
    (((Holder.new (T := Nat)).insert "a" 7).2).get "a" = some (0, 7) ∧
    (insertMany ((Holder.new (T := Nat)).insert "a" 7).2
      [("b", 15), ("c", 19)]).get "a" = some (0, 7) :=
  holder_address_stability Holder.new "a" 7 [("b", 15), ("c", 19)]
    (by decide) (by decide)

/-- Claim C2.  With `k` initially absent and `v1 ≠ v2`:
`insert(k, v1)` returns `None`; the following `insert(k, v2)` returns
a reference to the existing value `v1` (at its original address),
leaves the holder unchanged (so `v2` is never stored), and `get(k)`
still returns `v1`. -/
theorem holder_insert_idempotent {T : Type} (h : Holder T) (k : String)
    (v1 v2 : T) (hab : h.get k = none) (_hvne : v1 ≠ v2) :
    (h.insert k v1).1 = none ∧
    (((h.insert k v1).2).insert k v2).1 = some (h.nextAddr, v1) ∧
    (((h.insert k v1).2).insert k v2).2 = (h.insert k v1).2 ∧
    ((((h.insert k v1).2).insert k v2).2).get k = some (h.nextAddr, v1) := by
  have h1 := Holder.get_insert_self v1 hab
  have hs : (((h.insert k v1).2).get k).isSome := by rw [h1]; rfl
  have h2 := Holder.insert_of_present (h := (h.insert k v1).2) v2 hs
  refine ⟨by rw [Holder.insert_of_absent v1 hab], ?_, ?_, ?_⟩
  · rw [h2, h1]
  · rw [h2]
  · rw [h2, h1]

/-- Witness for C2 at a concrete input: fresh holder, `k = "d"`,
`v1 = 54`, `v2 = 84`. -/
theorem holder_insert_idempotent_witness :
    ((Holder.new (T := Nat)).insert "d" 54).1 = none ∧
    ((((Holder.new (T := Nat)).insert "d" 54).2).insert "d" 84).1 = some (0, 54) ∧
    ((((Holder.new (T := Nat)).insert "d" 54).2).insert "d" 84).2 =
      ((Holder.new (T := Nat)).insert "d" 54).2 ∧
    (((((Holder.new (T := Nat)).insert "d" 54).2).insert "d" 84).2).get "d" =
      some (0, 54) :=
  holder_insert_idempotent Holder.new "d" 54 84 (by decide) (by decide)

theorem Holder.get_new {T : Type} (k : String) :
    (Holder.new (T := T)).get k = none := rfl

theorem Holder.len_insert_absent {T : Type} {h : Holder T} {k : String}
    (el : T) (hab : h.get k = none) :
    ((h.insert k el).2).len = h.len + 1 := by
  rw [Holder.insert_of_absent el hab]
  simp [Holder.len]

theorem insertMany_get_of_mem {T : Type} (ops : List (String × T)) :
    ∀ h : Holder T, (∀ p ∈ ops, h.get p.1 = none) →
      (ops.map Prod.fst).Nodup →
      ∀ p ∈ ops, ((insertMany h ops).get p.1).map Prod.snd = some p.2 := by
  induction ops with
  | nil => intro h _ _ p hp; cases hp
  | cons q rest ih =>
    intro h hnew hnd p hp
    have hqab : h.get q.1 = none := hnew q (List.mem_cons_self q rest)
    have hnd2 : (q.1 :: rest.map Prod.fst).Nodup := by simpa using hnd
    have hnotin : q.1 ∉ rest.map Prod.fst := (List.nodup_cons.1 hnd2).1
    have hndr : (rest.map Prod.fst).Nodup := (List.nodup_cons.1 hnd2).2
    have hne_rest : ∀ r ∈ rest, r.1 ≠ q.1 := by
      intro r hr hcontra
      exact hnotin (hcontra ▸ List.mem_map_of_mem Prod.fst hr)
    have hnew1 : ∀ r ∈ rest, ((h.insert q.1 q.2).2).get r.1 = none := by
      intro r hr
      rw [Holder.get_insert_ne q.2 (fun hkr => (hne_rest r hr) hkr.symm)]
      exact hnew r (List.mem_cons_of_mem q hr)
    rcases List.mem_cons.1 hp with hpq | hpr
    · subst hpq
      show ((insertMany (h.insert p.1 p.2).2 rest).get p.1).map Prod.snd = some p.2
      rw [insertMany_get_ne rest _ p.1 hne_rest,
        Holder.get_insert_self p.2 hqab]
      rfl
    · exact ih (h.insert q.1 q.2).2 hnew1 hndr p hpr

theorem insertMany_len {T : Type} (ops : List (String × T)) :
    ∀ h : Holder T, (∀ p ∈ ops, h.get p.1 = none) →
      (ops.map Prod.fst).Nodup →
      (insertMany h ops).len = h.len + ops.length := by
  induction ops with
  | nil => intro h _ _; rfl
  | cons q rest ih =>
    intro h hnew hnd
    have hqab : h.get q.1 = none := hnew q (List.mem_cons_self q rest)
    have hnd2 : (q.1 :: rest.map Prod.fst).Nodup := by simpa using hnd
    have hnotin : q.1 ∉ rest.map Prod.fst := (List.nodup_cons.1 hnd2).1
    have hndr : (rest.map Prod.fst).Nodup := (List.nodup_cons.1 hnd2).2
    have hnew1 : ∀ r ∈ rest, ((h.insert q.1 q.2).2).get r.1 = none := by
      intro r hr
      have hrq : r.1 ≠ q.1 := by
        intro hcontra
        exact hnotin (hcontra ▸ List.mem_map_of_mem Prod.fst hr)
      rw [Holder.get_insert_ne q.2 (fun hkr => hrq hkr.symm)]
      exact hnew r (List.mem_cons_of_mem q hr)
    show (insertMany (h.insert q.1 q.2).2 rest).len = h.len + (rest.length + 1)
    rw [ih (h.insert q.1 q.2).2 hnew1 hndr, Holder.len_insert_absent q.2 hqab]
    omega

/-- Claim C4.  Inserting pairwise-distinct keys `k1..kn` with values
`v1..vn` into a fresh holder makes `get(ki)` return value `vi` for
every `i` and `len()` return `n`; in particular the concrete scenario
`"a"→7, "b"→15, "c"→19` gives `len()==3` and `get("a")` value `7`,
then `insert("d",54)` returns `None`, `insert("d",84)` returns a
reference to `54`, and `len()==4`. -/
theorem holder_insert_distinct_keys {T : Type} (l : List (String × T))
    (hnd : (l.map Prod.fst).Nodup) :
    (∀ p ∈ l, ((insertMany Holder.new l).get p.1).map Prod.snd = some p.2) ∧
    (insertMany Holder.new l).len = l.length ∧
    ((insertMany (Holder.new (T := Nat))
        [("a", 7), ("b", 15), ("c", 19)]).len = 3 ∧
      ((insertMany (Holder.new (T := Nat))
        [("a", 7), ("b", 15), ("c", 19)]).get "a").map Prod.snd = some 7 ∧
      ((insertMany (Holder.new (T := Nat))
        [("a", 7), ("b", 15), ("c", 19)]).insert "d" 54).1 = none ∧
      ((((insertMany (Holder.new (T := Nat))
        [("a", 7), ("b", 15), ("c", 19)]).insert "d" 54).2).insert
          "d" 84).1.map Prod.snd = some 54 ∧
      ((((insertMany (Holder.new (T := Nat))
        [("a", 7), ("b", 15), ("c", 19)]).insert "d" 54).2).insert
          "d" 84).2.len = 4) := by
  refine ⟨insertMany_get_of_mem l Holder.new (fun p _ => rfl) hnd, ?_, by decide⟩
  rw [insertMany_len l Holder.new (fun p _ => rfl) hnd]
  simp [Holder.new, Holder.len]

/-- Witness for C4 at the concrete input of the spec's scenario. -/
theorem holder_insert_distinct_keys_witness :
    (insertMany (Holder.new (T := Nat))
      [("a", 7), ("b", 15), ("c", 19)]).len = 3 :=
  (holder_insert_distinct_keys [("a", 7), ("b", 15), ("c", 19)]
    (by decide)).2.1

/-- Claim C5.  `clear()` removes all entries (`len()` becomes 0) and
leaves `capacity()` unchanged. -/
theorem holder_clear_spec {T : Type} (h : Holder T) :
    (h.clear).len = 0 ∧ (h.clear).capacity = h.capacity :=
  ⟨rfl, rfl⟩

/-! ## Theorems: pop_iter.rs -/

theorem popBack_concat {α : Type} (v : List α) (x : α) :
    popBack (v ++ [x]) = (some x, v) := by
  simp [popBack, List.getLast?_concat, List.dropLast_concat]

/-- Claim C8.  Over a vector `[v0, ..., v_{n-1}]`, `n` calls of the pop
iterator's `next()` yield the elements in last-to-first order (that
is, the reverse of the vector), each call removing the yielded element
from the vector; afterwards the vector is empty and a further `next()`
returns `None`. -/
theorem popIter_next_drains_reverse {α : Type} (v : List α) :
    drainN v.length v = (v.reverse, []) ∧
    (popIterNext (drainN v.length v).2).1 = none := by
  have main : drainN v.length v = (v.reverse, []) := by
    induction v using List.reverseRecOn with
    | nil => rfl
    | append_singleton l x ih =>
      rw [List.length_append]
      have step : drainN (l.length + 1) (l ++ [x]) =
          (x :: (drainN l.length l).1, (drainN l.length l).2) := by
        show (match popBack (l ++ [x]) with
          | (none, v2) => ([], v2)
          | (some y, v2) =>
            (y :: (drainN l.length v2).1, (drainN l.length v2).2)) = _
        rw [popBack_concat]
      rw [show l.length + [x].length = l.length + 1 from rfl, step, ih,
        List.reverse_append]
      rfl
  exact ⟨main, by rw [main]; rfl⟩

/-- Claim C9.  The pop iterator's `last()` returns the front element
(index 0) of a non-empty vector and removes one element from it (so on
the empty vector it returns `None` and removes nothing), and `count()`
returns the number of elements currently remaining in the vector. -/
theorem popIter_last_count_spec {α : Type} (v : List α) :
    (popIterLast v).1 = v.head? ∧
    (popIterLast v).2.length = v.length - 1 ∧
    popIterCount v = v.length := by
  cases v with
  | nil => exact ⟨rfl, rfl, rfl⟩
  | cons x xs =>
    have hne : x :: xs ≠ [] := by simp
    have hlast := List.getLast?_eq_getLast (x :: xs) hne
    have hsw : swapRemove (x :: xs) 0 =
        some (x, (((x :: xs).set 0 ((x :: xs).getLast hne)).dropLast)) := by
      simp [swapRemove, hlast]
    have hpl : popIterLast (x :: xs) =
        (some x, (((x :: xs).set 0 ((x :: xs).getLast hne)).dropLast)) := by
      simp [popIterLast, hsw]
    refine ⟨by rw [hpl]; rfl, ?_, rfl⟩
    rw [hpl]
    simp [List.length_dropLast, List.length_set]

/-- Claim C10.  On an underlying vector `[v0, ..., v_{n-1}]` with
`n ≥ 2` (written `v0 :: mid ++ [v_{n-1}]`), `last()` removes exactly
one element and moves the previously-last element into the vacated
front slot: it returns `v0` and leaves the vector
`[v_{n-1}, v1, ..., v_{n-2}]`, so the relative order of the remaining
elements is not preserved. -/
theorem popIter_last_swap_removal {α : Type} (x y : α) (mid : List α) :
    popIterLast (x :: mid ++ [y]) = (some x, y :: mid) := by
  have hlast : (x :: mid ++ [y]).getLast? = some y := by
    rw [show x :: mid ++ [y] = (x :: mid) ++ [y] from rfl,
      List.getLast?_concat]
  have hsw : swapRemove (x :: mid ++ [y]) 0 = some (x, y :: mid) := by
    unfold swapRemove
    rw [hlast]
    have h0 : (x :: mid ++ [y])[0]? = some x := by simp
    rw [h0]
    show some (x, ((x :: mid ++ [y]).set 0 y).dropLast) = some (x, y :: mid)
    rw [show (x :: mid ++ [y]).set 0 y = y :: (mid ++ [y]) from by simp,
      show y :: (mid ++ [y]) = (y :: mid) ++ [y] from rfl,
      List.dropLast_concat]
  rw [popIterLast, if_neg (by simp), hsw]

/-! ## Theorems: traits.rs -/

/-- Claim C6.  `get_two(a, b)` returns the two addressed elements
exactly when `a ≠ b` and both indices are in bounds, and returns
`None` when `a = b` or either index is out of bounds; on
`[0,1,2,3,4,5]`, `get_two(0,3)` returns `(0, 3)` and `get_two(1,1)`
returns `None`. -/
theorem getTwo_spec {α : Type} (v : List α) (a b : Nat) :
    ((getTwo v a b).isSome ↔ a ≠ b ∧ a < v.length ∧ b < v.length) ∧
    (∀ (ha : a < v.length) (hb : b < v.length), a ≠ b →
      getTwo v a b = some (v.get ⟨a, ha⟩, v.get ⟨b, hb⟩)) ∧
    getTwo ([0, 1, 2, 3, 4, 5] : List Nat) 0 3 = some (0, 3) ∧
    getTwo ([0, 1, 2, 3, 4, 5] : List Nat) 1 1 = none := by
  refine ⟨?_, ?_, by decide, by decide⟩
  · by_cases h : a ≠ b ∧ a < v.length ∧ b < v.length <;> simp [getTwo, h]
  · intro ha hb hab
    rw [getTwo, dif_pos ⟨hab, ha, hb⟩]
    rfl

/-- Witness for C6 at a concrete input: both addressed elements of
`[5, 6]` are returned for the distinct in-bounds indices 0 and 1. -/
theorem getTwo_spec_witness :
    getTwo ([5, 6] : List Nat) 0 1 = some (5, 6) :=
  (getTwo_spec ([5, 6] : List Nat) 0 1).2.1 (by decide) (by decide) (by decide)

/-! ## Theorems: insert_fn and its producer-invocation count -/

theorem Holder.insertFn_state_eq {T : Type} (h : Holder T) (k : String)
    (pr : Unit → T) : (h.insertFn k pr).2.1 = (h.insert k (pr ())).2 := by
  unfold Holder.insertFn Holder.insert
  by_cases hc : h.entries.any (fun e => e.1 == k) <;> simp [hc]

theorem Holder.insertFn_count_le_one {T : Type} (h : Holder T) (k : String)
    (pr : Unit → T) : (h.insertFn k pr).2.2 ≤ 1 := by
  unfold Holder.insertFn
  by_cases hc : h.entries.any (fun e => e.1 == k) <;> simp [hc]

theorem Holder.insertFn_of_present {T : Type} {h : Holder T} {k : String}
    (pr : Unit → T) (hs : (h.get k).isSome) :
    h.insertFn k pr = (h.get k, h, 0) := by
  have hc := (Holder.get_isSome_iff h k).1 hs
  simp [Holder.insertFn, hc]

theorem Holder.insertFn_count_of_absent {T : Type} {h : Holder T}
    {k : String} (pr : Unit → T) (hab : h.get k = none) :
    (h.insertFn k pr).2.2 = 1 := by
  have hc := (Holder.get_eq_none_iff h k).1 hab
  simp [Holder.insertFn, hc]

theorem insertFnMany_replicate_present {T : Type} (k : String)
    (pr : Unit → T) (n : Nat) :
    ∀ h : Holder T, (h.get k).isSome →
      insertFnMany h (List.replicate n (k, pr)) = (h, 0) := by
  induction n with
  | zero => intro h _; rfl
  | succ n ih =>
    intro h hs
    rw [List.replicate_succ]
    show ((insertFnMany (h.insertFn k pr).2.1 (List.replicate n (k, pr))).1,
      (h.insertFn k pr).2.2 +
        (insertFnMany (h.insertFn k pr).2.1 (List.replicate n (k, pr))).2) =
      (h, 0)
    rw [Holder.insertFn_of_present pr hs]
    rw [ih h hs]
    rfl

theorem insertFnMany_replicate_absent {T : Type} (h : Holder T)
    (k : String) (pr : Unit → T) (n : Nat) (hab : h.get k = none) :
    (insertFnMany h (List.replicate (n + 1) (k, pr))).2 = 1 := by
  rw [List.replicate_succ]
  show (h.insertFn k pr).2.2 +
    (insertFnMany (h.insertFn k pr).2.1 (List.replicate n (k, pr))).2 = 1
  have hs : (((h.insertFn k pr).2.1).get k).isSome := by
    rw [Holder.insertFn_state_eq, Holder.get_insert_self (pr ()) hab]
    rfl
  rw [insertFnMany_replicate_present k pr n _ hs,
    Holder.insertFn_count_of_absent pr hab]
  rfl

theorem insertFnMany_distinct {T : Type}
    (ops : List (String × (Unit → T))) :
    ∀ h : Holder T, (∀ p ∈ ops, h.get p.1 = none) →
      (ops.map Prod.fst).Nodup →
      (insertFnMany h ops).2 = ops.length := by
  induction ops with
  | nil => intro h _ _; rfl
  | cons q rest ih =>
    intro h hnew hnd
    have hnd2 : (q.1 :: rest.map Prod.fst).Nodup := by simpa using hnd
    have hnotin : q.1 ∉ rest.map Prod.fst := (List.nodup_cons.1 hnd2).1
    have hndr : (rest.map Prod.fst).Nodup := (List.nodup_cons.1 hnd2).2
    have hqab : h.get q.1 = none := hnew q (List.mem_cons_self q rest)
    have hnew1 : ∀ r ∈ rest, ((h.insertFn q.1 q.2).2.1).get r.1 = none := by
      intro r hr
      have hrq : r.1 ≠ q.1 := by
        intro hcontra
        exact hnotin (hcontra ▸ List.mem_map_of_mem Prod.fst hr)
      rw [Holder.insertFn_state_eq,
        Holder.get_insert_ne (q.2 ()) (fun hkr => hrq hkr.symm)]
      exact hnew r (List.mem_cons_of_mem q hr)
    show (h.insertFn q.1 q.2).2.2 +
      (insertFnMany (h.insertFn q.1 q.2).2.1 rest).2 = rest.length + 1
    rw [ih _ hnew1 hndr, Holder.insertFn_count_of_absent q.2 hqab]
    omega

/-- Claim C3.  `insert_fn(k, producer)` invokes the producer at most
once per call and not at all when `k` is already present; starting
from a holder where `k` is absent, `n + 1` calls with the same key `k`
invoke the producer exactly once in total, and a sequence of calls
with pairwise-distinct absent keys invokes it exactly once per key. -/
theorem holder_insertFn_lazy {T : Type} (h h2 : Holder T) (k k2 : String)
    (pr pr2 : Unit → T) (n : Nat) (ops : List (String × (Unit → T)))
    (hab : h.get k = none) (hops : ∀ p ∈ ops, h.get p.1 = none)
    (hnd : (ops.map Prod.fst).Nodup) :
    (h2.insertFn k2 pr2).2.2 ≤ 1 ∧
    ((h2.get k2).isSome → (h2.insertFn k2 pr2).2.2 = 0) ∧
    (insertFnMany h (List.replicate (n + 1) (k, pr))).2 = 1 ∧
    (insertFnMany h ops).2 = ops.length :=
  ⟨Holder.insertFn_count_le_one h2 k2 pr2,
    fun hs => by rw [Holder.insertFn_of_present pr2 hs],
    insertFnMany_replicate_absent h k pr n hab,
    insertFnMany_distinct ops h hops hnd⟩

/-- Witness for C3 at a concrete input: three `insert_fn` calls with
the same fresh key run the producer once; two calls with two distinct
fresh keys run it twice. -/
theorem holder_insertFn_lazy_witness :
    (insertFnMany (Holder.new (T := Nat))
      (List.replicate 3 ("a", fun _ => 7))).2 = 1 ∧
    (insertFnMany (Holder.new (T := Nat))
      [("b", fun _ => 1), ("c", fun _ => 2)]).2 = 2 :=
  ⟨(holder_insertFn_lazy Holder.new Holder.new "a" "a" (fun _ => 7)
      (fun _ => 7) 2 [("b", fun _ => 1), ("c", fun _ => 2)] rfl
      (fun _ _ => rfl) (by decide)).2.2.1,
    (holder_insertFn_lazy Holder.new Holder.new "a" "a" (fun _ => 7)
      (fun _ => 7) 2 [("b", fun _ => 1), ("c", fun _ => 2)] rfl
      (fun _ _ => rfl) (by decide)).2.2.2⟩

/-! ## Theorems: retain_mut -/

theorem take_set_of_le {α : Type} :
    ∀ (v : List α) (i k : Nat) (x : α), k ≤ i →
      (v.set i x).take k = v.take k
  | [], _, _, _, _ => by simp
  | a :: l, i, 0, x, _ => by simp
  | a :: l, 0, k+1, x, h => absurd h (by omega)
  | a :: l, i+1, k+1, x, h => by
    rw [List.set_cons_succ, List.take_succ_cons, List.take_succ_cons,
      take_set_of_le l i k x (by omega)]

theorem drop_set_of_lt {α : Type} (v : List α) (i k : Nat) (x : α)
    (h : i < k) : (v.set i x).drop k = v.drop k := by
  rw [List.drop_set, if_pos h]

theorem take_succ_of_lt {α : Type} (v : List α) (i : Nat)
    (h : i < v.length) : v.take (i + 1) = v.take i ++ [v.get ⟨i, h⟩] := by
  rw [← List.take_concat_get v i h, List.concat_eq_append]
  rfl

theorem filterMap_keepF_concat {α : Type} (f : α → α × Bool) (l : List α)
    (x : α) : (l ++ [x]).filterMap (keepF f) =
      l.filterMap (keepF f) ++
        (if (f x).2 then [(f x).1] else []) := by
  rw [List.filterMap_append]
  congr 1
  by_cases h : (f x).2 <;> simp [keepF, h]

theorem getElem?_of_drop_eq {α : Type} {v orig : List α} {i : Nat}
    (hdrop : v.drop i = orig.drop i) (hi : i < orig.length) :
    v[i]? = some (orig.get ⟨i, hi⟩) :=
  calc v[i]? = v[i + 0]? := by rw [Nat.add_zero]
    _ = (v.drop i)[0]? := (List.getElem?_drop v i 0).symm
    _ = (orig.drop i)[0]? := by rw [hdrop]
    _ = orig[i + 0]? := List.getElem?_drop orig i 0
    _ = some (orig.get ⟨i, hi⟩) := by
        rw [Nat.add_zero, List.getElem?_eq_getElem hi, List.get_eq_getElem]

theorem listSwap_eq_of_lt {α : Type} (v : List α) (a b : Nat)
    (ha : a < v.length) (hb : b < v.length) :
    listSwap v a b =
      (v.set a (v.get ⟨b, hb⟩)).set b (v.get ⟨a, ha⟩) := by
  unfold listSwap
  rw [List.getElem?_eq_getElem ha, List.getElem?_eq_getElem hb]
  rfl

theorem retainMutGo_step {α : Type} (f : α → α × Bool) (v : List α)
    (fuel i del : Nat) (x : α) (hvi : v[i]? = some x) :
    retainMutGo f v (fuel+1) i del =
      if (f x).2 = false then
        retainMutGo f (v.set i (f x).1) fuel (i+1) (del+1)
      else if 0 < del then
        retainMutGo f (listSwap (v.set i (f x).1) (i - del) i) fuel (i+1) del
      else
        retainMutGo f (v.set i (f x).1) fuel (i+1) del := by
  conv_lhs => rw [retainMutGo]
  rw [hvi]

theorem retainMutGo_invariant {α : Type} (f : α → α × Bool)
    (orig : List α) :
    ∀ (fuel i del : Nat) (v : List α),
      i + fuel = orig.length →
      del ≤ i →
      v.length = orig.length →
      v.take (i - del) = (orig.take i).filterMap (keepF f) →
      v.drop i = orig.drop i →
      (retainMutGo f v fuel i del).1.length = orig.length ∧
      (retainMutGo f v fuel i del).2 ≤ orig.length ∧
      (retainMutGo f v fuel i del).1.take
          (orig.length - (retainMutGo f v fuel i del).2) =
        orig.filterMap (keepF f) := by
  intro fuel
  induction fuel with
  | zero =>
    intro i del v hif hdel hlen htake hdrop
    have hi : i = orig.length := by omega
    subst hi
    refine ⟨hlen, hdel, ?_⟩
    show v.take (orig.length - del) = List.filterMap (keepF f) orig
    rw [htake, List.take_length]
  | succ fuel ih =>
    intro i del v hif hdel hlen htake hdrop
    have hi : i < orig.length := by omega
    have hvi : v[i]? = some (orig.get ⟨i, hi⟩) :=
      getElem?_of_drop_eq hdrop hi
    have hstep := retainMutGo_step f v fuel i del (orig.get ⟨i, hi⟩) hvi
    have hivl : i < v.length := by omega
    have hdropsucc : ∀ w : List α, w.drop i = orig.drop i →
        w.drop (i+1) = orig.drop (i+1) := by
      intro w hw
      rw [show i + 1 = i + 1 from rfl, ← List.drop_drop 1 i w,
        ← List.drop_drop 1 i orig, hw]
    have htake_orig : (orig.take (i+1)).filterMap (keepF f) =
        (orig.take i).filterMap (keepF f) ++
          (if (f (orig.get ⟨i, hi⟩)).2
            then [(f (orig.get ⟨i, hi⟩)).1] else []) := by
      rw [take_succ_of_lt orig i hi, filterMap_keepF_concat]
    by_cases hkeep : (f (orig.get ⟨i, hi⟩)).2 = false
    · rw [hstep, if_pos hkeep]
      apply ih (i+1) (del+1) (v.set i (f (orig.get ⟨i, hi⟩)).1)
        (by omega) (by omega) (by rw [List.length_set]; exact hlen)
      · rw [show i + 1 - (del + 1) = i - del from by omega,
          take_set_of_le v i (i - del) _ (by omega), htake, htake_orig,
          hkeep]
        simp
      · rw [drop_set_of_lt v i (i+1) _ (by omega)]
        exact hdropsucc v hdrop
    · have hkeepT : (f (orig.get ⟨i, hi⟩)).2 = true := by
        revert hkeep; cases (f (orig.get ⟨i, hi⟩)).2 <;> simp
      by_cases hdelpos : 0 < del
      · rw [hstep, if_neg hkeep, if_pos hdelpos]
        have hsetlen : (v.set i (f (orig.get ⟨i, hi⟩)).1).length =
            v.length := List.length_set v i _
        have hidlt : i - del < (v.set i (f (orig.get ⟨i, hi⟩)).1).length := by
          rw [hsetlen]; omega
        have hilt : i < (v.set i (f (orig.get ⟨i, hi⟩)).1).length := by
          rw [hsetlen]; omega
        have hswap := listSwap_eq_of_lt (v.set i (f (orig.get ⟨i, hi⟩)).1)
          (i - del) i hidlt hilt
        apply ih (i+1) del _ (by omega) (by omega)
        · rw [hswap, List.length_set, List.length_set, List.length_set]
          exact hlen
        · rw [hswap, show i + 1 - del = (i - del) + 1 from by omega]
          have hlenA : i - del <
              (((v.set i (f (orig.get ⟨i, hi⟩)).1).set (i - del)
                ((v.set i (f (orig.get ⟨i, hi⟩)).1).get ⟨i, hilt⟩)).set i
                ((v.set i (f (orig.get ⟨i, hi⟩)).1).get
                  ⟨i - del, hidlt⟩)).length := by
            rw [List.length_set, List.length_set, hsetlen]; omega
          rw [take_succ_of_lt _ (i - del) hlenA]
          rw [take_set_of_le _ i (i - del) _ (by omega),
            take_set_of_le _ (i - del) (i - del) _ (by omega),
            take_set_of_le v i (i - del) _ (by omega), htake, htake_orig,
            hkeepT]
          have hne2 : ¬ (i = i - del) := by omega
          simp [List.get_eq_getElem, List.getElem_set, hne2]
        · rw [hswap, drop_set_of_lt _ i (i+1) _ (by omega),
            drop_set_of_lt _ (i - del) (i+1) _ (by omega),
            drop_set_of_lt v i (i+1) _ (by omega)]
          exact hdropsucc v hdrop
      · rw [hstep, if_neg hkeep, if_neg hdelpos]
        have hdel0 : del = 0 := by omega
        apply ih (i+1) del _ (by omega) (by omega)
          (by rw [List.length_set]; exact hlen)
        · subst hdel0
          rw [Nat.sub_zero] at htake ⊢
          have hilt2 : i < (v.set i (f (orig.get ⟨i, hi⟩)).1).length := by
            rw [List.length_set]; omega
          rw [take_succ_of_lt _ i hilt2, take_set_of_le v i i _ (by omega),
            htake, htake_orig, hkeepT]
          simp [List.get_eq_getElem, List.getElem_set]
        · rw [drop_set_of_lt v i (i+1) _ (by omega)]
          exact hdropsucc v hdrop

theorem retainMut_eq_filterMap {α : Type} (f : α → α × Bool)
    (v : List α) : retainMut f v = v.filterMap (keepF f) := by
  obtain ⟨hlen, hdel, htake⟩ := retainMutGo_invariant f v v.length 0 0 v
    (by omega) (by omega) rfl (by simp) rfl
  show (if 0 < (retainMutGo f v v.length 0 0).2 then
      (retainMutGo f v v.length 0 0).1.take
        (v.length - (retainMutGo f v v.length 0 0).2)
    else (retainMutGo f v v.length 0 0).1) = v.filterMap (keepF f)
  by_cases hpos : 0 < (retainMutGo f v v.length 0 0).2
  · rw [if_pos hpos]
    exact htake
  · rw [if_neg hpos]
    have hz : (retainMutGo f v v.length 0 0).2 = 0 := by omega
    rw [hz, Nat.sub_zero] at htake
    calc (retainMutGo f v v.length 0 0).1
        = (retainMutGo f v v.length 0 0).1.take
            (retainMutGo f v v.length 0 0).1.length :=
          (List.take_length _).symm
      _ = (retainMutGo f v v.length 0 0).1.take v.length := by rw [hlen]
      _ = v.filterMap (keepF f) := htake

/-- Claim C7.  `retain_mut(f)` removes in place exactly the elements
for which the predicate returns `false` (judging and keeping the
element as mutated by the predicate) and preserves the relative order
of the kept elements — the result is the order-preserving sequence of
mutated kept elements; on `[0,1,2,3,4,5]` with the predicate
"increment, then keep if even" the result is `[2,4,6]`. -/
theorem retainMut_spec {α : Type} (f : α → α × Bool) (v : List α) :
    retainMut f v = v.filterMap (keepF f) ∧
    retainMut (fun x : Nat => (x + 1, (x + 1) % 2 == 0)) [0, 1, 2, 3, 4, 5]
      = [2, 4, 6] :=
  ⟨retainMut_eq_filterMap f v, by decide⟩

end CrowUtil
